import Mathlib

/-!
Verification of the stream-matching reader (`src/reader.rs`).

The buffer is modelled as a `List Char`, matching the spec's view of the
accumulation buffer as an ordered sequence of characters (each input byte is
decoded to one character).  Match positions are character offsets.
-/

/-- Model of an externally compiled regular expression (`regex::Regex`).
The engine is an external capability returning a start/end offset pair for
the leftmost match; `boundsOk` records the engine's contract that a reported
match lies inside the haystack.  `source` is the pattern text used by the
`Display` implementation. -/
structure RegexM where
  source : List Char
  findIn : List Char → Option (Nat × Nat)
  boundsOk : ∀ b s e, findIn b = some (s, e) → s ≤ e ∧ e ≤ b.length

/-- `ReadUntil` from `src/reader.rs` (lines 23-29): the pattern variants. -/
inductive ReadUntil where
  | string (s : List Char)
  | regex (r : RegexM)
  | eof
  | nbytes (n : Nat)
  | any (v : List ReadUntil)

/-- Rust `str::find` for a literal needle: position of the first occurrence
of `s` as a contiguous sub-sequence of `b` (`none` if absent).  An empty
needle matches at position 0. -/
def findSub (s : List Char) : List Char → Option Nat
  | [] => if ([] : List Char).take s.length = s then some 0 else none
  | c :: t =>
    if (c :: t).take s.length = s then some 0
    else (findSub s t).map (· + 1)

/-- The comparator passed to `min_by` in the `ReadUntil::Any` arm of `find`
(lines 91-97): compare starts, ties broken by comparing ends. -/
def cmpSpan (p q : Nat × Nat) : Ordering :=
  if p.1 = q.1 then compare p.2 q.2 else compare p.1 q.1

/-- The accumulation step of Rust `Iterator::min_by`: keep the current
minimum unless the new element compares strictly below it (so on ties the
first minimal element is kept). -/
def minByStep (cmp : α → α → Ordering) (acc : Option α) (x : α) : Option α :=
  match acc with
  | none => some x
  | some m => if cmp x m = .lt then some x else some m

/-- Rust `Iterator::min_by`: the minimum under `cmp`, as the underlying
left fold. -/
def minByCmp (cmp : α → α → Ordering) (l : List α) : Option α :=
  l.foldl (minByStep cmp) none

mutual

/-- `find` from `src/reader.rs` (lines 64-99): first occurrence of `needle`
within `buffer`, as an optional half-open span `(start, end)`. -/
def find : ReadUntil → List Char → Bool → Option (Nat × Nat)
  | .string s, buffer, _ => (findSub s buffer).map (fun pos => (pos, pos + s.length))
  | .regex r, buffer, _ => r.findIn buffer
  | .eof, buffer, eofb => if eofb then some (0, buffer.length) else none
  | .nbytes n, buffer, eofb =>
    if n ≤ buffer.length then some (0, n)
    else if eofb ∧ buffer ≠ [] then some (0, buffer.length)
    else none
  | .any anys, buffer, eofb => minByCmp cmpSpan (findList anys buffer eofb)

/-- The iterator chain of the `ReadUntil::Any` arm (lines 86-89): apply
`find` to every member, keeping the spans of the members that matched, in
list order. -/
def findList : List ReadUntil → List Char → Bool → List (Nat × Nat)
  | [], _, _ => []
  | a :: rest, buffer, eofb =>
    match find a buffer eofb with
    | some sp => sp :: findList rest buffer eofb
    | none => findList rest buffer eofb

end

mutual

/-- `impl fmt::Display for ReadUntil` (lines 31-50): the pattern's textual
description. -/
def ruToString : ReadUntil → String
  | .string s =>
    if s = ['\n'] then "\\n (newline)"
    else if s = ['\r'] then "\\r (carriage return)"
    else "\"" ++ String.mk s ++ "\""
  | .regex r => "Regex: \"" ++ String.mk r.source ++ "\""
  | .eof => "EOF (End of File)"
  | .nbytes n => "reading " ++ Nat.repr n ++ " bytes"
  | .any v => String.intercalate ", " (ruToStringList v)

/-- The `Vec` of rendered members built in the `ReadUntil::Any` arm of
`Display` (lines 40-46). -/
def ruToStringList : List ReadUntil → List String
  | [] => []
  | r :: rest => ruToString r :: ruToStringList rest

end

/-- One item of the pump's channel: `Result<PipedChar, PipeError>`
(lines 11-21).  An I/O error is represented by its `raw_os_error` code. -/
inductive ChanItem where
  | char (c : Char)
  | eofMark
  | ioErr (rawOsError : Option Int)

/-- The mutable state of `NBReader` (lines 106-111).  The channel itself is
modelled by passing the currently pending items to each draining operation. -/
structure ReaderState where
  buffer : List Char
  eof : Bool
  timeout : Option Nat

/-- One iteration of the `while let` loop in `read_into_buffer`
(lines 165-178): process a single channel item. -/
def stepEvent (st : ReaderState) : ChanItem → ReaderState
  | .char c => { st with buffer := st.buffer ++ [c] }
  | .eofMark => { st with eof := true }
  | .ioErr raw => { st with eof := raw = some 5 }

/-- `NBReader::read_into_buffer` (lines 161-180): if `eof` is already set,
return immediately; otherwise process every currently pending channel item. -/
def readIntoBuffer (st : ReaderState) (events : List ChanItem) : ReaderState :=
  if st.eof then st else events.foldl stepEvent st

/-- `NBReader::try_read` (lines 272-280): drain, then pop the first
buffered character if any. -/
def tryRead (st : ReaderState) (events : List ChanItem) : Option Char × ReaderState :=
  let st2 := readIntoBuffer st events
  match st2.buffer with
  | [] => (none, st2)
  | c :: rest => (some c, { st2 with buffer := rest })

/-- The two error variants `read_until` can produce (`Error::EOF` and
`Error::Timeout`). -/
inductive RError where
  | eofErr (expected : String) (got : List Char) (exitCode : Option Int)
  | timeoutErr (expected : String) (got : List Char) (timeout : Nat)

/-- Outcome of one iteration of the `read_until` loop body: success, error,
or fall through to the 100 ms sleep and retry. -/
inductive IterOutcome where
  | ok (first second : List Char)
  | err (e : RError)
  | retry

/-- Rust `str::replace` with a single-character needle: replace every
occurrence of `target` by `repl`. -/
def replaceChar (target : Char) (repl : List Char) : List Char → List Char
  | [] => []
  | c :: rest =>
    if c = target then repl ++ replaceChar target repl rest
    else c :: replaceChar target repl rest

/-- The diagnostic rendering applied to the buffer in the `Timeout` error
(lines 255-260): `\n`, `\r` and escape are made visible (0x60 is the
backquote character). -/
def renderGot (b : List Char) : List Char :=
  replaceChar '\x1b' [Char.ofNat 96, '^', Char.ofNat 96]
    (replaceChar '\r' [Char.ofNat 96, '\\', 'r', Char.ofNat 96]
      (replaceChar '\n' [Char.ofNat 96, '\\', 'n', Char.ofNat 96, '\n'] b))

/-- One iteration of the loop body of `NBReader::read_until`
(lines 231-267): drain, search, then on failure check eof, then timeout
(`elapsed` is the wall-clock time elapsed since the call started, in the
same unit as the configured timeout). -/
def readUntilIter (st : ReaderState) (events : List ChanItem) (needle : ReadUntil)
    (elapsed : Nat) : IterOutcome × ReaderState :=
  let st2 := readIntoBuffer st events
  match find needle st2.buffer st2.eof with
  | some (s, e) =>
    let first := st2.buffer.take s
    let rest1 := st2.buffer.drop s
    let second := rest1.take (e - s)
    (.ok first second, { st2 with buffer := rest1.drop (e - s) })
  | none =>
    if st2.eof then
      (.err (.eofErr (ruToString needle) st2.buffer none), st2)
    else
      match st2.timeout with
      | some t =>
        if elapsed > t then
          (.err (.timeoutErr (ruToString needle) (renderGot st2.buffer) t), st2)
        else (.retry, st2)
      | none => (.retry, st2)

/-- `NBReader::read_until` as a whole: iterate the loop body over a schedule
giving, for each iteration, the channel items that have arrived and the
elapsed time at that iteration.  `none` means the schedule ended with the
loop still running (still blocked). -/
def readUntilRun (st : ReaderState) (needle : ReadUntil) :
    List (List ChanItem × Nat) → Option (IterOutcome × ReaderState)
  | [] => none
  | (events, elapsed) :: rest =>
    match readUntilIter st events needle elapsed with
    | (.retry, st2) => readUntilRun st2 needle rest
    | other => some other

/-- The operations a consumer can apply to the reader state, each tagged
with the channel items pending at the time of its internal drain. -/
inductive ReaderOp where
  | drainOp (events : List ChanItem)
  | readUntilOp (events : List ChanItem) (needle : ReadUntil) (elapsed : Nat)
  | tryReadOp (events : List ChanItem)

/-- State transition of a single reader operation. -/
def applyOp (st : ReaderState) : ReaderOp → ReaderState
  | .drainOp events => readIntoBuffer st events
  | .readUntilOp events needle elapsed => (readUntilIter st events needle elapsed).2
  | .tryReadOp events => (tryRead st events).2

/-- State after a sequence of reader operations. -/
def applyOps (st : ReaderState) (ops : List ReaderOp) : ReaderState :=
  ops.foldl applyOp st

/-- The order the `Any` arm minimises: earlier start wins, ties on start
broken by smaller end. -/
def spanLE (x y : Nat × Nat) : Prop :=
  x.1 < y.1 ∨ (x.1 = y.1 ∧ x.2 ≤ y.2)

/-! ### Helper lemmas -/

theorem findSub_bounds (s : List Char) : ∀ (b : List Char) (pos : Nat),
    findSub s b = some pos → pos + s.length ≤ b.length := by
  intro b
  induction b with
  | nil =>
    intro pos h
    unfold findSub at h
    split at h
    · rename_i hp
      have := congrArg List.length hp
      simp at this h
      omega
    · exact absurd h (by simp)
  | cons c t ih =>
    intro pos h
    unfold findSub at h
    split at h
    · rename_i hp
      have := congrArg List.length hp
      simp [List.length_take] at this
      simp at h
      simp only [List.length_cons]
      omega
    · simp [Option.map_eq_some'] at h
      obtain ⟨q, hq, hpos⟩ := h
      have := ih q hq
      simp
      omega

theorem minByCmp_foldl_mem (cmp : α → α → Ordering) :
    ∀ (l : List α) (m0 x : α),
    List.foldl (minByStep cmp) (some m0) l = some x → x = m0 ∨ x ∈ l := by
  intro l
  induction l with
  | nil => intro m0 x h; simp at h; exact Or.inl h.symm
  | cons y ys ih =>
    intro m0 x h
    simp only [List.foldl_cons, minByStep] at h
    by_cases hc : cmp y m0 = .lt
    · simp [hc] at h
      rcases ih y x h with h1 | h2
      · exact Or.inr (h1 ▸ List.mem_cons_self y ys)
      · exact Or.inr (List.mem_cons_of_mem y h2)
    · simp [hc] at h
      rcases ih m0 x h with h1 | h2
      · exact Or.inl h1
      · exact Or.inr (List.mem_cons_of_mem y h2)

theorem minByCmp_mem (cmp : α → α → Ordering) (l : List α) (x : α)
    (h : minByCmp cmp l = some x) : x ∈ l := by
  cases l with
  | nil => simp [minByCmp] at h
  | cons y ys =>
    unfold minByCmp at h
    simp only [List.foldl_cons] at h
    rcases minByCmp_foldl_mem cmp ys y x h with h1 | h2
    · exact h1 ▸ List.mem_cons_self y ys
    · exact List.mem_cons_of_mem y h2

theorem minByCmp_foldl_ne_none (cmp : α → α → Ordering) :
    ∀ (l : List α) (m0 : α),
    List.foldl (minByStep cmp) (some m0) l ≠ none := by
  intro l
  induction l with
  | nil => intro m0 h; simp at h
  | cons y ys ih =>
    intro m0
    simp only [List.foldl_cons, minByStep]
    by_cases hc : cmp y m0 = .lt
    · simp [hc]; exact ih y
    · simp [hc]; exact ih m0

theorem minByCmp_none_iff (cmp : α → α → Ordering) (l : List α) :
    minByCmp cmp l = none ↔ l = [] := by
  cases l with
  | nil => simp [minByCmp]
  | cons y ys =>
    simp only [minByCmp, List.foldl_cons]
    constructor
    · intro h
      exact absurd h (minByCmp_foldl_ne_none cmp ys y)
    · intro h
      exact absurd h (by simp)

theorem findList_mem : ∀ (l : List ReadUntil) (b : List Char) (eofb : Bool) (sp : Nat × Nat),
    sp ∈ findList l b eofb → ∃ p ∈ l, find p b eofb = some sp := by
  intro l b eofb
  induction l with
  | nil => intro sp h; simp [findList] at h
  | cons a rest ih =>
    intro sp h
    unfold findList at h
    cases hf : find a b eofb with
    | some sp2 =>
      rw [hf] at h
      rcases List.mem_cons.mp h with h1 | h2
      · exact ⟨a, List.mem_cons_self a rest, h1 ▸ hf⟩
      · obtain ⟨p, hp, hfind⟩ := ih sp h2
        exact ⟨p, List.mem_cons_of_mem a hp, hfind⟩
    | none =>
      rw [hf] at h
      obtain ⟨p, hp, hfind⟩ := ih sp h
      exact ⟨p, List.mem_cons_of_mem a hp, hfind⟩

theorem findList_of_find : ∀ (l : List ReadUntil) (b : List Char) (eofb : Bool)
    (p : ReadUntil) (sp : Nat × Nat),
    p ∈ l → find p b eofb = some sp → sp ∈ findList l b eofb := by
  intro l b eofb
  induction l with
  | nil => intro p sp hp _; simp at hp
  | cons a rest ih =>
    intro p sp hp hfind
    unfold findList
    rcases List.mem_cons.mp hp with rfl | hmem
    · rw [hfind]; exact List.mem_cons_self sp _
    · cases hf : find a b eofb with
      | some sp2 => exact List.mem_cons_of_mem sp2 (ih p sp hmem hfind)
      | none => exact ih p sp hmem hfind

theorem findList_nil_iff : ∀ (l : List ReadUntil) (b : List Char) (eofb : Bool),
    findList l b eofb = [] ↔ ∀ p ∈ l, find p b eofb = none := by
  intro l b eofb
  induction l with
  | nil => simp [findList]
  | cons a rest ih =>
    unfold findList
    cases hf : find a b eofb with
    | some sp =>
      simp only [List.cons_ne_nil, false_iff]
      intro hall
      have := hall a (List.mem_cons_self a rest)
      rw [hf] at this
      exact absurd this (by simp)
    | none =>
      rw [ih]
      constructor
      · intro hall p hp
        rcases List.mem_cons.mp hp with rfl | hmem
        · exact hf
        · exact hall p hmem
      · intro hall p hp
        exact hall p (List.mem_cons_of_mem a hp)

theorem find_bounds (needle : ReadUntil) (b : List Char) (eofb : Bool) (s e : Nat)
    (h : find needle b eofb = some (s, e)) : s ≤ e ∧ e ≤ b.length := by
  match needle with
  | .string str =>
    unfold find at h
    simp [Option.map_eq_some'] at h
    obtain ⟨pos, hpos, hs, he⟩ := h
    have := findSub_bounds str b pos hpos
    omega
  | .regex r =>
    unfold find at h
    exact r.boundsOk b s e h
  | .eof =>
    unfold find at h
    split at h
    · simp at h; omega
    · exact absurd h (by simp)
  | .nbytes n =>
    unfold find at h
    split at h
    · rename_i hn; simp at h; omega
    · split at h
      · simp at h; omega
      · exact absurd h (by simp)
  | .any anys =>
    unfold find at h
    have hmem := minByCmp_mem cmpSpan _ _ h
    obtain ⟨p, hp, hfind⟩ := findList_mem anys b eofb (s, e) hmem
    have : sizeOf p < sizeOf (ReadUntil.any anys) := by
      have := List.sizeOf_lt_of_mem hp
      simp only [ReadUntil.any.sizeOf_spec]
      omega
    exact find_bounds p b eofb s e hfind
termination_by sizeOf needle

theorem cmpSpan_lt_iff (x y : Nat × Nat) :
    cmpSpan x y = .lt ↔ (x.1 < y.1 ∨ (x.1 = y.1 ∧ x.2 < y.2)) := by
  unfold cmpSpan
  split <;> rename_i h
  · simp [Nat.compare_eq_lt, h]
  · simp [Nat.compare_eq_lt, h]

theorem spanLE_refl (x : Nat × Nat) : spanLE x x := by
  unfold spanLE; omega

theorem spanLE_trans (x y z : Nat × Nat) (h1 : spanLE x y) (h2 : spanLE y z) :
    spanLE x z := by
  unfold spanLE at *; omega

theorem spanLE_of_lt (x y : Nat × Nat) (h : cmpSpan x y = .lt) : spanLE x y := by
  rw [cmpSpan_lt_iff] at h
  unfold spanLE
  omega

theorem spanLE_of_not_lt (x y : Nat × Nat) (h : ¬ cmpSpan x y = .lt) : spanLE y x := by
  rw [cmpSpan_lt_iff] at h
  unfold spanLE
  omega

theorem minByCmp_foldl_min : ∀ (l : List (Nat × Nat)) (m0 x : Nat × Nat),
    List.foldl (minByStep cmpSpan) (some m0) l = some x →
    spanLE x m0 ∧ ∀ y ∈ l, spanLE x y := by
  intro l
  induction l with
  | nil =>
    intro m0 x h
    simp at h
    subst h
    exact ⟨spanLE_refl _, by simp⟩
  | cons y ys ih =>
    intro m0 x h
    simp only [List.foldl_cons, minByStep] at h
    by_cases hc : cmpSpan y m0 = .lt
    · simp [hc] at h
      obtain ⟨h1, h2⟩ := ih y x h
      refine ⟨spanLE_trans _ _ _ h1 (spanLE_of_lt y m0 hc), ?_⟩
      intro z hz
      rcases List.mem_cons.mp hz with rfl | hz2
      · exact h1
      · exact h2 z hz2
    · simp [hc] at h
      obtain ⟨h1, h2⟩ := ih m0 x h
      refine ⟨h1, ?_⟩
      intro z hz
      rcases List.mem_cons.mp hz with hz1 | hz2
      · subst hz1
        exact spanLE_trans _ _ _ h1 (spanLE_of_not_lt _ m0 hc)
      · exact h2 z hz2

theorem minByCmp_min (l : List (Nat × Nat)) (x : Nat × Nat)
    (h : minByCmp cmpSpan l = some x) : ∀ y ∈ l, spanLE x y := by
  cases l with
  | nil => simp [minByCmp] at h
  | cons y ys =>
    unfold minByCmp at h
    simp only [List.foldl_cons] at h
    obtain ⟨h1, h2⟩ := minByCmp_foldl_min ys y x h
    intro z hz
    rcases List.mem_cons.mp hz with rfl | hz2
    · exact h1
    · exact h2 z hz2

theorem readIntoBuffer_nil (st : ReaderState) : readIntoBuffer st [] = st := by
  unfold readIntoBuffer
  split <;> rfl

theorem readIntoBuffer_of_eof (st : ReaderState) (events : List ChanItem)
    (h : st.eof = true) : readIntoBuffer st events = st := by
  simp [readIntoBuffer, h]

theorem readUntilIter_state (st : ReaderState) (events : List ChanItem)
    (needle : ReadUntil) (elapsed : Nat) :
    ((readUntilIter st events needle elapsed).2.eof = (readIntoBuffer st events).eof ∧
     (readUntilIter st events needle elapsed).2.timeout =
       (readIntoBuffer st events).timeout) ∧
    (∀ er, (readUntilIter st events needle elapsed).1 = .err er →
      (readUntilIter st events needle elapsed).2 = readIntoBuffer st events) := by
  simp only [readUntilIter]
  split
  · simp
  · split
    · simp
    · split
      · split <;> simp
      · simp

theorem tryRead_state (st : ReaderState) (events : List ChanItem) :
    (tryRead st events).1 = (readIntoBuffer st events).buffer.head? ∧
    (tryRead st events).2.buffer = (readIntoBuffer st events).buffer.tail ∧
    (tryRead st events).2.eof = (readIntoBuffer st events).eof ∧
    (tryRead st events).2.timeout = (readIntoBuffer st events).timeout := by
  simp only [tryRead]
  split <;> rename_i heq <;> simp [heq]

theorem applyOp_eof (st : ReaderState) (op : ReaderOp) (h : st.eof = true) :
    (applyOp st op).eof = true := by
  cases op with
  | drainOp events =>
    show (readIntoBuffer st events).eof = true
    rw [readIntoBuffer_of_eof st events h]
    exact h
  | readUntilOp events needle elapsed =>
    show (readUntilIter st events needle elapsed).2.eof = true
    rw [(readUntilIter_state st events needle elapsed).1.1,
      readIntoBuffer_of_eof st events h]
    exact h
  | tryReadOp events =>
    show (tryRead st events).2.eof = true
    rw [(tryRead_state st events).2.2.1, readIntoBuffer_of_eof st events h]
    exact h

/-! ### Claims -/

/-- C1: for every pattern and reader state, if `find` returns the span
`[s, e)` on the current buffer and eof flag, then `read_until` succeeds on
that iteration, returning the pair (`buffer[0..s)`, `buffer[s..e)`), and
afterwards the reader's buffer is the old buffer with exactly its first `e`
characters removed (the suffix `buffer[e..)` is preserved in order). -/
theorem read_until_match_consumes (st : ReaderState) (needle : ReadUntil) (s e : Nat)
    (h : find needle st.buffer st.eof = some (s, e)) (elapsed : Nat)
    (sched : List (List ChanItem × Nat)) :
    readUntilRun st needle (([], elapsed) :: sched) =
      some (.ok (st.buffer.take s) ((st.buffer.drop s).take (e - s)),
            { st with buffer := st.buffer.drop e }) := by
  have hse : s ≤ e := (find_bounds needle st.buffer st.eof s e h).1
  have hdrop : (st.buffer.drop s).drop (e - s) = st.buffer.drop e := by
    rw [List.drop_drop]
    congr 1
    omega
  simp only [readUntilRun, readUntilIter, readIntoBuffer_nil, h]
  rw [hdrop]

/-- C1 witness. -/
theorem read_until_match_consumes_witness :
    find (.string ['b']) (⟨['a', 'b', 'c'], false, none⟩ : ReaderState).buffer
        (⟨['a', 'b', 'c'], false, none⟩ : ReaderState).eof = some (1, 2) ∧
    readUntilRun ⟨['a', 'b', 'c'], false, none⟩ (.string ['b']) [([], 0)] =
      some (.ok ['a'] ['b'], ⟨['c'], false, none⟩) := by
  refine ⟨rfl, ?_⟩
  exact read_until_match_consumes ⟨['a', 'b', 'c'], false, none⟩ (.string ['b']) 1 2 rfl 0 []

/-- C2: `find` on `Any(ps)` returns no match exactly when no member
matches, and a returned span is a member's span that is minimal among all
member spans: smallest start, ties on start broken by smallest end (the
shorter match wins at the leftmost position, regardless of list order). -/
theorem find_any_leftmost_shortest (ps : List ReadUntil) (b : List Char) (eofb : Bool) :
    (find (.any ps) b eofb = none ↔ ∀ p ∈ ps, find p b eofb = none) ∧
    (∀ s e, find (.any ps) b eofb = some (s, e) →
      (∃ p ∈ ps, find p b eofb = some (s, e)) ∧
      ∀ p ∈ ps, ∀ s2 e2, find p b eofb = some (s2, e2) →
        s < s2 ∨ (s = s2 ∧ e ≤ e2)) := by
  constructor
  · show minByCmp cmpSpan (findList ps b eofb) = none ↔ _
    rw [minByCmp_none_iff, findList_nil_iff]
  · intro s e h
    have h2 : minByCmp cmpSpan (findList ps b eofb) = some (s, e) := h
    constructor
    · exact findList_mem ps b eofb (s, e) (minByCmp_mem _ _ _ h2)
    · intro p hp s2 e2 hf2
      have hmem2 := findList_of_find ps b eofb p (s2, e2) hp hf2
      have hle := minByCmp_min _ _ h2 (s2, e2) hmem2
      unfold spanLE at hle
      simpa using hle

/-- C2 witness: the spec's concrete case, patterns "hello" and "hell"
over "hi hello" — the shorter match at the shared start wins. -/
theorem find_any_leftmost_shortest_witness :
    find (.any [.string ['h', 'e', 'l', 'l', 'o'], .string ['h', 'e', 'l', 'l']])
        ['h', 'i', ' ', 'h', 'e', 'l', 'l', 'o'] false = some (3, 7) ∧
    find (.string ['h', 'e', 'l', 'l', 'o'])
        ['h', 'i', ' ', 'h', 'e', 'l', 'l', 'o'] false = some (3, 8) ∧
    (3 < 3 ∨ (3 = 3 ∧ 7 ≤ 8)) := by
  refine ⟨by decide, by decide, ?_⟩
  exact ((find_any_leftmost_shortest
      [.string ['h', 'e', 'l', 'l', 'o'], .string ['h', 'e', 'l', 'l']]
      ['h', 'i', ' ', 'h', 'e', 'l', 'l', 'o'] false).2 3 7 (by decide)).2
    (.string ['h', 'e', 'l', 'l', 'o']) (List.Mem.head _) 3 8 (by decide)

/-- C3: `find` on `NBytes(n)` returns `[0, n)` when the buffer holds at
least `n` characters; otherwise `[0, len(buffer))` when eof has been
observed and the buffer is non-empty; otherwise no match. -/
theorem find_nbytes_cases (n : Nat) (b : List Char) (eofb : Bool) :
    (n ≤ b.length → find (.nbytes n) b eofb = some (0, n)) ∧
    (b.length < n → eofb = true → b ≠ [] → find (.nbytes n) b eofb = some (0, b.length)) ∧
    (b.length < n → (eofb = false ∨ b = []) → find (.nbytes n) b eofb = none) := by
  unfold find
  refine ⟨?_, ?_, ?_⟩
  · intro h1
    rw [if_pos h1]
  · intro h1 h2 h3
    rw [if_neg (by omega), if_pos ⟨h2, h3⟩]
  · intro h1 h2
    rw [if_neg (by omega), if_neg]
    rintro ⟨he, hb⟩
    rcases h2 with h2 | h2
    · rw [h2] at he
      exact Bool.false_ne_true he
    · exact hb h2

/-- C3 witness: a short final read. -/
theorem find_nbytes_cases_witness :
    ((['a', 'b'] : List Char).length < 5 ∧ (['a', 'b'] : List Char) ≠ []) ∧
    find (.nbytes 5) ['a', 'b'] true = some (0, (['a', 'b'] : List Char).length) :=
  ⟨⟨by decide, by decide⟩,
   (find_nbytes_cases 5 ['a', 'b'] true).2.1 (by decide) rfl (by decide)⟩

/-- C4: `find` on `EOF` returns the whole-buffer span `[0, len(buffer))`
(even when the buffer is empty) exactly when eof has been observed, and no
match when it has not. -/
theorem find_eof_whole_buffer (b : List Char) (eofb : Bool) :
    (find .eof b eofb = some (0, b.length) ↔ eofb = true) ∧
    (eofb = false → find .eof b eofb = none) := by
  cases eofb <;> simp [find]

/-- C4 witness: non-empty buffer, empty buffer, and the eof-false case. -/
theorem find_eof_whole_buffer_witness :
    find .eof ['x'] true = some (0, 1) ∧
    find .eof [] true = some (0, 0) ∧
    find .eof ['x'] false = none :=
  ⟨(find_eof_whole_buffer ['x'] true).1.mpr rfl,
   (find_eof_whole_buffer [] true).1.mpr rfl,
   (find_eof_whole_buffer ['x'] false).2 rfl⟩

/-- C5: when, after draining, the pattern does not match and eof has been
observed, `read_until` fails on that iteration with the `EOF` (Exhausted)
error carrying the pattern's textual description, the current unconsumed
buffer, and no exit code — even if a configured timeout has also elapsed
(the eof check precedes the timeout check), and the state is unchanged. -/
theorem read_until_exhausted (st : ReaderState) (needle : ReadUntil) (elapsed : Nat)
    (sched : List (List ChanItem × Nat))
    (hm : find needle st.buffer st.eof = none) (he : st.eof = true) :
    readUntilRun st needle (([], elapsed) :: sched) =
      some (.err (.eofErr (ruToString needle) st.buffer none), st) := by
  have hm2 : find needle st.buffer true = none := he ▸ hm
  simp [readUntilRun, readUntilIter, readIntoBuffer_nil, he, hm2]

/-- C5 witness: timeout 0 with elapsed 5 (timeout elapsed), yet the error
is the Exhausted one. -/
theorem read_until_exhausted_witness :
    find (.string ['z']) (⟨['a', 'b'], true, some 0⟩ : ReaderState).buffer
        (⟨['a', 'b'], true, some 0⟩ : ReaderState).eof = none ∧
    (⟨['a', 'b'], true, some 0⟩ : ReaderState).eof = true ∧
    readUntilRun ⟨['a', 'b'], true, some 0⟩ (.string ['z']) [([], 5)] =
      some (.err (.eofErr (ruToString (.string ['z'])) ['a', 'b'] none),
            ⟨['a', 'b'], true, some 0⟩) :=
  ⟨rfl, rfl, read_until_exhausted ⟨['a', 'b'], true, some 0⟩ (.string ['z']) 5 [] rfl rfl⟩

/-- C6: whenever an iteration of `read_until` produces an error (Exhausted
or Timeout), the resulting reader state is exactly the state after that
iteration's drain — the error consumes nothing, so a subsequent call
continues from the same buffer and eof state. -/
theorem read_until_error_keeps_state (st : ReaderState) (events : List ChanItem)
    (needle : ReadUntil) (elapsed : Nat) (er : RError)
    (h : (readUntilIter st events needle elapsed).1 = .err er) :
    (readUntilIter st events needle elapsed).2 = readIntoBuffer st events :=
  (readUntilIter_state st events needle elapsed).2 er h

/-- C6 witness. -/
theorem read_until_error_keeps_state_witness :
    (readUntilIter ⟨['a'], true, none⟩ [] (.string ['z']) 0).1 =
      .err (.eofErr (ruToString (.string ['z'])) ['a'] none) ∧
    (readUntilIter ⟨['a'], true, none⟩ [] (.string ['z']) 0).2 =
      readIntoBuffer ⟨['a'], true, none⟩ [] :=
  ⟨rfl, read_until_error_keeps_state ⟨['a'], true, none⟩ [] (.string ['z']) 0
    (.eofErr (ruToString (.string ['z'])) ['a'] none) rfl⟩

/-- C7: the eof flag is monotonic across reader operations: for every
sequence of drain / read_until-iteration / try_read operations applied to a
state in which eof has been observed, the flag remains set. -/
theorem eof_monotonic (st : ReaderState) (ops : List ReaderOp) (h : st.eof = true) :
    (applyOps st ops).eof = true := by
  induction ops generalizing st with
  | nil => exact h
  | cons op rest ih =>
    show (applyOps (applyOp st op) rest).eof = true
    exact ih (applyOp st op) (applyOp_eof st op h)

/-- C7 witness. -/
theorem eof_monotonic_witness :
    (⟨['a'], true, some 7⟩ : ReaderState).eof = true ∧
    (applyOps ⟨['a'], true, some 7⟩
      [.drainOp [.char 'x'], .tryReadOp [], .readUntilOp [] (.nbytes 1) 9]).eof = true :=
  ⟨rfl, eof_monotonic ⟨['a'], true, some 7⟩
    [.drainOp [.char 'x'], .tryReadOp [], .readUntilOp [] (.nbytes 1) 9] rfl⟩

/-- C8 counterexample: `find` on `NBytes(0)` returns the empty span
`[0, 0)` (its start is not strictly below its end), so a span returned for
a `ByteCount` pattern can be empty. -/
theorem find_nbytes_zero_empty :
    find (.nbytes 0) ['a'] false = some (0, 0) ∧ ¬ (0 < 0) :=
  ⟨rfl, by decide⟩

/-- C8 (amended): for `n ≥ 1`, a span returned by `find` on `NBytes(n)` is
never empty: its start is strictly less than its end. -/
theorem find_nbytes_pos_nonempty (n : Nat) (b : List Char) (eofb : Bool) (s e : Nat)
    (hn : 0 < n) (h : find (.nbytes n) b eofb = some (s, e)) : s < e := by
  unfold find at h
  split at h
  · simp at h
    omega
  · split at h
    · rename_i hcond
      simp at h
      have hb : 0 < b.length := List.length_pos.mpr hcond.2
      omega
    · exact absurd h (by simp)

/-- C8 (amended) witness. -/
theorem find_nbytes_pos_nonempty_witness :
    0 < 1 ∧ find (.nbytes 1) ['a'] false = some (0, 1) ∧ 0 < 1 :=
  ⟨Nat.one_pos, rfl, find_nbytes_pos_nonempty 1 ['a'] false 0 1 Nat.one_pos rfl⟩

/-- C9: `try_read` never errs (it is a total function into an optional
character): after draining, it returns the head of the buffer (nothing when
the buffer is empty — also on every call once the source is exhausted and
drained) and removes exactly that first character, leaving eof and timeout
untouched, so repeated calls yield the characters strictly in stream
order. -/
theorem try_read_pops_head (st : ReaderState) (events : List ChanItem) :
    (tryRead st events).1 = (readIntoBuffer st events).buffer.head? ∧
    (tryRead st events).2.buffer = (readIntoBuffer st events).buffer.tail ∧
    (tryRead st events).2.eof = (readIntoBuffer st events).eof ∧
    (tryRead st events).2.timeout = (readIntoBuffer st events).timeout :=
  tryRead_state st events

/-- C10: any span returned by `find` lies within the buffer: its start is
at most its end and its end is at most the buffer length — hence the two
prefix removals `read_until` performs on success are within bounds. -/
theorem find_span_within_buffer (needle : ReadUntil) (b : List Char) (eofb : Bool)
    (s e : Nat) (h : find needle b eofb = some (s, e)) :
    s ≤ e ∧ e ≤ b.length ∧ s ≤ b.length ∧ e - s ≤ (b.drop s).length := by
  obtain ⟨h1, h2⟩ := find_bounds needle b eofb s e h
  refine ⟨h1, h2, by omega, ?_⟩
  rw [List.length_drop]
  omega

/-- C10 witness. -/
theorem find_span_within_buffer_witness :
    find (.string ['b']) ['a', 'b', 'c'] false = some (1, 2) ∧
    (1 ≤ 2 ∧ 2 ≤ (['a', 'b', 'c'] : List Char).length ∧
      1 ≤ (['a', 'b', 'c'] : List Char).length ∧
      2 - 1 ≤ ((['a', 'b', 'c'] : List Char).drop 1).length) :=
  ⟨rfl, find_span_within_buffer (.string ['b']) ['a', 'b', 'c'] false 1 2 rfl⟩
